import Mathlib

/-!
Shallow embedding of the blockchain ticketing ledger (`TicketBlockchain` and
friends, the second, authoritative class set in the source file `hehehe.py`,
lines 228-321).

Modelling decisions, all visible in the definitions below:
* `hashlib.sha256(json.dumps(...))` is abstracted as a parameter
  `H : HashInput → String` mapping the five hashed fields (index, transactions,
  timestamp, previous_hash, nonce) to a hex digest string.  Every invariant is
  proved for an arbitrary `H`; the proof-of-work search additionally needs the
  assumption `GoodHash H` (for every input some nonce yields a digest with
  enough leading zeros), which is the spec's "hash outputs are effectively
  uniformly distributed" termination argument.
* `time.time()` readings are nondeterministic inputs: each operation that
  records a timestamp takes it as an explicit `Nat` argument.
* `uuid.uuid4()` outputs are nondeterministic inputs: `issue_ticket` takes the
  generated id as an explicit argument; traces that only issue ids absent from
  the registry (`okTrace`) model the spec's "fresh unique identifier".
* The Python `dict` `tickets` is an insertion-ordered association list;
  `dictGet`/`dictInsert` model `dict.get` and `dict.__setitem__`.
-/

namespace TicketChain

/-- Model of `TicketTransaction.__init__` (source lines 228-235): an immutable record of
one ticket-affecting action.  `event` is `None` except for issue transactions,
`new_owner` is `None` except for transfer transactions. -/
structure TicketTransaction where
  tx_type : String
  ticket_id : String
  owner : String
  event : Option String
  new_owner : Option String
  timestamp : Nat
deriving DecidableEq, Repr

/-- The five fields serialized by `Block.compute_hash` (source lines 248-256).
The stored `hash` attribute is not part of the hashed payload. -/
structure HashInput where
  index : Nat
  transactions : List TicketTransaction
  timestamp : Nat
  previous_hash : String
  nonce : Nat
deriving DecidableEq, Repr

/-- Model of `Block` (source lines 240-246) together with the `hash` attribute that the
Python code assigns after sealing (`genesis_block.hash = ...`,
`new_block.hash = ...`).  Before sealing the attribute does not exist; we use
`""` as the not-yet-sealed placeholder, which no computation reads. -/
structure Block where
  index : Nat
  transactions : List TicketTransaction
  timestamp : Nat
  previous_hash : String
  nonce : Nat
  hash : String
deriving DecidableEq, Repr

/-- The constant `TicketBlockchain.difficulty = 2` (source line 259). -/
def difficulty : Nat := 2

/-- The string `"0" * difficulty` (source line 287). -/
def zeros (k : Nat) : String := String.mk (List.replicate k '0')

/-- The test `computed_hash.startswith("0" * difficulty)` (source line 287): the digest
string begins with at least `difficulty` `'0'` characters. -/
def okDigest (s : String) : Bool := (zeros difficulty).data.isPrefixOf s.data

/-- The hashed payload of a block: its five serialized fields. -/
def Block.toInput (b : Block) : HashInput :=
  { index := b.index, transactions := b.transactions, timestamp := b.timestamp,
    previous_hash := b.previous_hash, nonce := b.nonce }

/-- Model of `Block.compute_hash` (source lines 248-256): apply the hash function to the
current stored fields. -/
def Block.compute_hash (H : HashInput → String) (b : Block) : String :=
  H b.toInput

/-- The hashed payload with the nonce replaced: one step of the proof-of-work
search space. -/
def HashInput.withNonce (inp : HashInput) (n : Nat) : HashInput :=
  { inp with nonce := n }

/-- The termination assumption for the proof-of-work search: every payload has
some nonce whose digest satisfies the difficulty predicate.  This is the spec's
uniform-distribution argument for `hashlib.sha256`. -/
def GoodHash (H : HashInput → String) : Prop :=
  ∀ inp : HashInput, ∃ n : Nat, okDigest (H (inp.withNonce n)) = true

/-- One registry entry: `{"owner": ..., "status": ..., "event": ...}` (source
line 296). -/
structure TicketRec where
  owner : String
  status : String
  event : Option String
deriving DecidableEq, Repr

/-- Model of the `TicketBlockchain.__init__` state (source lines 261-265): the chain of
sealed blocks, the pending-transaction buffer, and the ticket registry. -/
structure TicketBlockchain where
  chain : List Block
  pending_transactions : List TicketTransaction
  tickets : List (String × TicketRec)
deriving DecidableEq, Repr

/-- Python `dict.get(k)` on the insertion-ordered registry. -/
def dictGet (k : String) : List (String × TicketRec) → Option TicketRec
  | [] => none
  | (k', v) :: m => if k' = k then some v else dictGet k m

/-- Python `d[k] = v`: overwrite in place (keeping the key's position) when the
key is present, else append in insertion order. -/
def dictInsert (k : String) (v : TicketRec) :
    List (String × TicketRec) → List (String × TicketRec)
  | [] => [(k, v)]
  | (k', w) :: m => if k' = k then (k, v) :: m else (k', w) :: dictInsert k v m

/-- Model of `create_genesis_block` (source lines 267-270): `Block(0, [], "0")` with
default nonce `0`, whose hash is computed and stored without any difficulty
requirement. -/
def create_genesis_block (H : HashInput → String) (t : Nat) : Block :=
  { index := 0, transactions := [], timestamp := t, previous_hash := "0",
    nonce := 0,
    hash := H { index := 0, transactions := [], timestamp := t,
                previous_hash := "0", nonce := 0 } }

/-- Model of `TicketBlockchain.__init__` (source lines 261-265): empty chain, pending
buffer and registry, then `create_genesis_block()`. -/
def initChain (H : HashInput → String) (t : Nat) : TicketBlockchain :=
  { chain := [create_genesis_block H t], pending_transactions := [], tickets := [] }

/-- Model of `add_transaction` (source lines 272-273): append to the pending buffer. -/
def add_transaction (s : TicketBlockchain) (tx : TicketTransaction) :
    TicketBlockchain :=
  { s with pending_transactions := s.pending_transactions ++ [tx] }

/-- Model of `proof_of_work` (source lines 284-290): reset `nonce` to `0` and increment
it until the digest satisfies the difficulty predicate; the least such nonce is
what the loop reaches.  Returns the block with its final nonce together with
the digest the Python function returns.  Totality is exactly the `hex`
hypothesis; `Nat.find` is the value the loop terminates with. -/
def proof_of_work (H : HashInput → String) (b : Block)
    (hex : ∃ n : Nat, okDigest (H (b.toInput.withNonce n)) = true) :
    Block × String :=
  let n0 := Nat.find hex
  ({ b with nonce := n0 }, H (b.toInput.withNonce n0))

/-- The default block `List.getLastD` needs for `chain[-1]`.  The chain is
never empty (the constructor installs the genesis block), so it is never
read. -/
def dummyBlock : Block :=
  { index := 0, transactions := [], timestamp := 0, previous_hash := "",
    nonce := 0, hash := "" }

/-- Model of `mine` (source lines 275-282): `None` on an empty pending buffer; otherwise
build `Block(len(chain), pending, chain[-1].compute_hash())`, seal it by
proof-of-work, append it, clear the pending buffer, and return it. -/
def mine (H : HashInput → String) (hg : GoodHash H) (s : TicketBlockchain)
    (t : Nat) : Option Block × TicketBlockchain :=
  if s.pending_transactions = [] then
    (none, s)
  else
    let prev := s.chain.getLastD dummyBlock
    let new_block : Block :=
      { index := s.chain.length, transactions := s.pending_transactions,
        timestamp := t, previous_hash := prev.compute_hash H, nonce := 0,
        hash := "" }
    let sealed := proof_of_work H new_block (hg new_block.toInput)
    let final : Block := { sealed.1 with hash := sealed.2 }
    (some final,
     { s with chain := s.chain ++ [final], pending_transactions := [] })

/-- Model of `issue_ticket` (source lines 292-297) with the `uuid.uuid4()` output and the
`time.time()` reading as explicit inputs: record an issue transaction and insert
a fresh `{owner, "valid", event}` registry entry. -/
def issue_ticket (s : TicketBlockchain) (owner event tid : String) (t : Nat) :
    String × TicketBlockchain :=
  let tx : TicketTransaction :=
    { tx_type := "issue", ticket_id := tid, owner := owner, event := some event,
      new_owner := none, timestamp := t }
  let s1 := add_transaction s tx
  (tid, { s1 with
          tickets := dictInsert tid
            { owner := owner, status := "valid", event := some event }
            s1.tickets })

/-- Model of `transfer_ticket` (source lines 299-306): fail unless the ticket exists with
status `"valid"`; on success record a transfer transaction carrying the old
owner and mutate the registry entry's owner in place. -/
def transfer_ticket (s : TicketBlockchain) (tid new_owner : String) (t : Nat) :
    Bool × TicketBlockchain :=
  match dictGet tid s.tickets with
  | none => (false, s)
  | some ticket =>
    if ticket.status ≠ "valid" then (false, s)
    else
      let tx : TicketTransaction :=
        { tx_type := "transfer", ticket_id := tid, owner := ticket.owner,
          event := none, new_owner := some new_owner, timestamp := t }
      let s1 := add_transaction s tx
      (true, { s1 with
               tickets := dictInsert tid { ticket with owner := new_owner }
                 s1.tickets })

/-- Model of `redeem_ticket` (source lines 308-315): fail unless the ticket exists with
status `"valid"`; on success record a redeem transaction and set the registry
status to `"redeemed"` in place. -/
def redeem_ticket (s : TicketBlockchain) (tid : String) (t : Nat) :
    Bool × TicketBlockchain :=
  match dictGet tid s.tickets with
  | none => (false, s)
  | some ticket =>
    if ticket.status ≠ "valid" then (false, s)
    else
      let tx : TicketTransaction :=
        { tx_type := "redeem", ticket_id := tid, owner := ticket.owner,
          event := none, new_owner := none, timestamp := t }
      let s1 := add_transaction s tx
      (true, { s1 with
               tickets := dictInsert tid { ticket with status := "redeemed" }
                 s1.tickets })

/-- Model of `verify_ticket` (source lines 317-321): look the ticket up; `None` when
absent, the registry entry otherwise.  It takes the state only as input — the
embedding of a pure read. -/
def verify_ticket (s : TicketBlockchain) (tid : String) : Option TicketRec :=
  match dictGet tid s.tickets with
  | none => none
  | some ticket => some ticket

/-- One façade call, with its nondeterministic inputs (uuid, clock readings)
made explicit. -/
inductive Op where
  | issue (owner event tid : String) (t : Nat)
  | transfer (tid new_owner : String) (t : Nat)
  | redeem (tid : String) (t : Nat)
  | mine (t : Nat)
  | verify (tid : String)
deriving DecidableEq, Repr

/-- The state reached after one façade call (`verify_ticket` reads only). -/
def applyOp (H : HashInput → String) (hg : GoodHash H) (s : TicketBlockchain) :
    Op → TicketBlockchain
  | .issue owner event tid t => (issue_ticket s owner event tid t).2
  | .transfer tid new_owner t => (transfer_ticket s tid new_owner t).2
  | .redeem tid t => (redeem_ticket s tid t).2
  | .mine t => (mine H hg s t).2
  | .verify _ => s

/-- The state reached after a sequence of façade calls. -/
def run (H : HashInput → String) (hg : GoodHash H) (s : TicketBlockchain) :
    List Op → TicketBlockchain
  | [] => s
  | op :: ops => run H hg (applyOp H hg s op) ops

/-- A trace only issues ids absent from the registry: the model of
`uuid.uuid4()` freshness. -/
def okTrace (H : HashInput → String) (hg : GoodHash H) (s : TicketBlockchain) :
    List Op → Bool
  | [] => true
  | op :: ops =>
    (match op with
     | .issue _ _ tid _ => (dictGet tid s.tickets).isNone
     | _ => true) && okTrace H hg (applyOp H hg s op) ops

/-- The transactions an operation appends to the pending buffer via
`add_transaction` when applied in state `s` (mirrors the guards of the source
methods: issue always appends one, transfer/redeem append one exactly on
success, mine and verify append none). -/
def submittedOp (s : TicketBlockchain) : Op → List TicketTransaction
  | .issue owner event tid t =>
    [{ tx_type := "issue", ticket_id := tid, owner := owner,
       event := some event, new_owner := none, timestamp := t }]
  | .transfer tid new_owner t =>
    match dictGet tid s.tickets with
    | none => []
    | some ticket =>
      if ticket.status ≠ "valid" then []
      else [{ tx_type := "transfer", ticket_id := tid, owner := ticket.owner,
              event := none, new_owner := some new_owner, timestamp := t }]
  | .redeem tid t =>
    match dictGet tid s.tickets with
    | none => []
    | some ticket =>
      if ticket.status ≠ "valid" then []
      else [{ tx_type := "redeem", ticket_id := tid, owner := ticket.owner,
              event := none, new_owner := none, timestamp := t }]
  | .mine _ => []
  | .verify _ => []

/-- All transactions a sequence of façade calls appends, in order. -/
def submittedAll (H : HashInput → String) (hg : GoodHash H)
    (s : TicketBlockchain) : List Op → List TicketTransaction
  | [] => []
  | op :: ops => submittedOp s op ++ submittedAll H hg (applyOp H hg s op) ops

/-- Every transaction currently recorded in the ledger: those inside sealed
blocks, in chain order, followed by the pending buffer. -/
def allTxs (s : TicketBlockchain) : List TicketTransaction :=
  (s.chain.map Block.transactions).flatten ++ s.pending_transactions

end TicketChain

namespace TicketChain

/-! ### Registry (Python dict) lemmas -/

theorem dictGet_dictInsert_self (k : String) (v : TicketRec) :
    ∀ m : List (String × TicketRec), dictGet k (dictInsert k v m) = some v
  | [] => by simp [dictInsert, dictGet]
  | (k', w) :: m => by
    by_cases hk : k' = k
    · simp [dictInsert, hk, dictGet]
    · simp only [dictInsert, hk, if_false, dictGet]
      exact dictGet_dictInsert_self k v m

theorem dictGet_dictInsert_ne (k k' : String) (v : TicketRec) (hne : k' ≠ k) :
    ∀ m : List (String × TicketRec),
      dictGet k' (dictInsert k v m) = dictGet k' m
  | [] => by
    have h2 : ¬k = k' := fun h => hne h.symm
    simp [dictInsert, dictGet, h2]
  | (k₂, w) :: m => by
    by_cases hk : k₂ = k
    · subst hk
      have h2 : ¬k₂ = k' := fun h => hne h.symm
      simp [dictInsert, dictGet, h2]
    · simp only [dictInsert, hk, if_false, dictGet]
      by_cases h2 : k₂ = k'
      · simp [h2]
      · simp only [h2, if_false]
        exact dictGet_dictInsert_ne k k' v hne m

/-! ### Basic shape lemmas about the façade operations -/

theorem issue_ticket_chain (s : TicketBlockchain) (o e tid : String) (t : Nat) :
    (issue_ticket s o e tid t).2.chain = s.chain := rfl

theorem transfer_ticket_cases (s : TicketBlockchain) (tid nw : String) (t : Nat) :
    ((dictGet tid s.tickets = none ∨
        ∃ tk, dictGet tid s.tickets = some tk ∧ tk.status ≠ "valid") ∧
      transfer_ticket s tid nw t = (false, s)) ∨
    (∃ tk, dictGet tid s.tickets = some tk ∧ tk.status = "valid" ∧
      transfer_ticket s tid nw t =
        (true,
          { chain := s.chain,
            pending_transactions := s.pending_transactions ++
              [{ tx_type := "transfer", ticket_id := tid, owner := tk.owner,
                 event := none, new_owner := some nw, timestamp := t }],
            tickets := dictInsert tid { tk with owner := nw } s.tickets })) := by
  unfold transfer_ticket
  cases hg : dictGet tid s.tickets with
  | none => exact Or.inl ⟨Or.inl rfl, rfl⟩
  | some tk =>
    by_cases hst : tk.status = "valid"
    · refine Or.inr ⟨tk, rfl, hst, ?_⟩
      simp only [ne_eq, hst, not_true_eq_false, if_false, add_transaction]
    · exact Or.inl ⟨Or.inr ⟨tk, rfl, hst⟩, by simp [hst]⟩

theorem redeem_ticket_cases (s : TicketBlockchain) (tid : String) (t : Nat) :
    ((dictGet tid s.tickets = none ∨
        ∃ tk, dictGet tid s.tickets = some tk ∧ tk.status ≠ "valid") ∧
      redeem_ticket s tid t = (false, s)) ∨
    (∃ tk, dictGet tid s.tickets = some tk ∧ tk.status = "valid" ∧
      redeem_ticket s tid t =
        (true,
          { chain := s.chain,
            pending_transactions := s.pending_transactions ++
              [{ tx_type := "redeem", ticket_id := tid, owner := tk.owner,
                 event := none, new_owner := none, timestamp := t }],
            tickets := dictInsert tid { tk with status := "redeemed" } s.tickets })) := by
  unfold redeem_ticket
  cases hg : dictGet tid s.tickets with
  | none => exact Or.inl ⟨Or.inl rfl, rfl⟩
  | some tk =>
    by_cases hst : tk.status = "valid"
    · refine Or.inr ⟨tk, rfl, hst, ?_⟩
      simp only [ne_eq, hst, not_true_eq_false, if_false, add_transaction]
    · exact Or.inl ⟨Or.inr ⟨tk, rfl, hst⟩, by simp [hst]⟩

theorem transfer_ticket_chain (s : TicketBlockchain) (tid nw : String) (t : Nat) :
    (transfer_ticket s tid nw t).2.chain = s.chain := by
  rcases transfer_ticket_cases s tid nw t with ⟨_, h⟩ | ⟨tk, _, _, h⟩ <;> rw [h]

theorem redeem_ticket_chain (s : TicketBlockchain) (tid : String) (t : Nat) :
    (redeem_ticket s tid t).2.chain = s.chain := by
  rcases redeem_ticket_cases s tid t with ⟨_, h⟩ | ⟨tk, _, _, h⟩ <;> rw [h]

theorem mine_tickets (H : HashInput → String) (hg : GoodHash H)
    (s : TicketBlockchain) (t : Nat) : (mine H hg s t).2.tickets = s.tickets := by
  unfold mine
  by_cases hp : s.pending_transactions = [] <;> simp [hp]

end TicketChain

namespace TicketChain

/-- The state reached from a fresh `TicketBlockchain()` by a sequence of façade
calls. -/
def reachAt (H : HashInput → String) (hg : GoodHash H) (t0 : Nat)
    (ops : List Op) : TicketBlockchain :=
  run H hg (initChain H t0) ops

/-! ### A concrete hash function and states used to instantiate theorems -/

/-- A concrete hash function whose digests always satisfy the difficulty
predicate, used to instantiate the parameterized theorems. -/
def H0 : HashInput → String := fun _ => "00"

theorem goodH0 : GoodHash H0 := fun _ => ⟨0, rfl⟩

theorem pow_H0 (b : Block)
    (hex : ∃ n : Nat, okDigest (H0 (b.toInput.withNonce n)) = true) :
    proof_of_work H0 b hex = ({ b with nonce := 0 }, "00") := by
  have h0 : Nat.find hex = 0 := (Nat.find_eq_zero hex).mpr rfl
  simp [proof_of_work, h0, H0]

/-- A concrete state holding one valid ticket `"X"` owned by `"Alice"`. -/
def sA : TicketBlockchain :=
  { chain := [], pending_transactions := [],
    tickets := [("X", { owner := "Alice", status := "valid", event := some "E" })] }

end TicketChain

namespace TicketChain

/-! ### C5: transfer_ticket success/failure contract -/

/-- C5: the call `transfer_ticket(ticket_id, new_owner)` returns `false` and leaves the
entire state (registry, pending buffer, chain) unchanged exactly when the
ticket is absent or its status is not `"valid"`; otherwise it returns `true`,
appends exactly one transfer transaction carrying the pre-transfer owner and
the new owner, and updates the registry entry's owner while keeping its status
(and event). -/
theorem transfer_ticket_spec (s : TicketBlockchain) (tid nw : String) (t : Nat) :
    ((transfer_ticket s tid nw t).1 = false ↔
      dictGet tid s.tickets = none ∨
        ∃ tk, dictGet tid s.tickets = some tk ∧ tk.status ≠ "valid") ∧
    ((transfer_ticket s tid nw t).1 = false → (transfer_ticket s tid nw t).2 = s) ∧
    (∀ tk, dictGet tid s.tickets = some tk → tk.status = "valid" →
      (transfer_ticket s tid nw t).1 = true ∧
      (transfer_ticket s tid nw t).2.pending_transactions
        = s.pending_transactions ++
          [{ tx_type := "transfer", ticket_id := tid, owner := tk.owner,
             event := none, new_owner := some nw, timestamp := t }] ∧
      dictGet tid (transfer_ticket s tid nw t).2.tickets
        = some { tk with owner := nw } ∧
      (transfer_ticket s tid nw t).2.chain = s.chain) := by
  rcases transfer_ticket_cases s tid nw t with ⟨hcond, heq⟩ | ⟨tk, hget, hst, heq⟩
  · refine ⟨⟨fun _ => hcond, fun _ => by rw [heq]⟩, fun _ => by rw [heq], ?_⟩
    intro tk hget hst
    rcases hcond with h | ⟨tk', hget', hst'⟩
    · rw [h] at hget; cases hget
    · rw [hget'] at hget
      cases hget
      exact absurd hst hst'
  · constructor
    · rw [heq]
      constructor
      · intro h; cases h
      · rintro (h | ⟨tk', hget', hst'⟩)
        · rw [h] at hget; cases hget
        · rw [hget'] at hget
          cases hget
          exact absurd hst hst'
    · refine ⟨?_, ?_⟩
      · intro h
        rw [heq] at h
        exact absurd h (by simp)
      intro tk' hget' hstv
      rw [hget'] at hget
      cases hget
      rw [heq]
      exact ⟨rfl, rfl, dictGet_dictInsert_self tid _ s.tickets, rfl⟩

theorem transfer_ticket_spec_witness :
    dictGet "X" sA.tickets
      = some { owner := "Alice", status := "valid", event := some "E" } ∧
    (transfer_ticket sA "X" "Bob" 5).1 = true ∧
    dictGet "X" (transfer_ticket sA "X" "Bob" 5).2.tickets
      = some { owner := "Bob", status := "valid", event := some "E" } := by
  have h := (transfer_ticket_spec sA "X" "Bob" 5).2.2
    { owner := "Alice", status := "valid", event := some "E" } (by decide) rfl
  exact ⟨by decide, h.1, h.2.2.1⟩

/-! ### C7: mine on an empty pending buffer -/

/-- C7: calling `mine()` with an empty pending buffer is a no-op: it returns the no-op
signal `none` and leaves the whole state (chain, pending buffer, registry)
unchanged. -/
theorem mine_empty_noop (H : HashInput → String) (hg : GoodHash H)
    (s : TicketBlockchain) (t : Nat) (hp : s.pending_transactions = []) :
    mine H hg s t = (none, s) := by
  simp [mine, hp]

theorem mine_empty_noop_witness :
    (initChain H0 0).pending_transactions = [] ∧
    mine H0 goodH0 (initChain H0 0) 3 = (none, initChain H0 0) :=
  ⟨rfl, mine_empty_noop H0 goodH0 (initChain H0 0) 3 rfl⟩

/-! ### C8: the proof-of-work search -/

/-- C8: the proof-of-work search, total under the assumption that some nonce
satisfies the difficulty predicate (the spec's uniform-distribution termination
argument): starting from nonce `0` and incrementing by `1` on each failure it
stops at the first satisfying nonce, the digest it returns is the hash of the
block's fields at that nonce and satisfies the difficulty predicate, and all
other fields are untouched. -/
theorem proof_of_work_spec (H : HashInput → String) (b : Block)
    (hex : ∃ n : Nat, okDigest (H (b.toInput.withNonce n)) = true) :
    (proof_of_work H b hex).2 = H ((proof_of_work H b hex).1.toInput) ∧
    okDigest (proof_of_work H b hex).2 = true ∧
    (∀ m < (proof_of_work H b hex).1.nonce,
      okDigest (H (b.toInput.withNonce m)) = false) ∧
    (proof_of_work H b hex).1.index = b.index ∧
    (proof_of_work H b hex).1.transactions = b.transactions ∧
    (proof_of_work H b hex).1.timestamp = b.timestamp ∧
    (proof_of_work H b hex).1.previous_hash = b.previous_hash := by
  refine ⟨rfl, Nat.find_spec hex, ?_, rfl, rfl, rfl, rfl⟩
  intro m hm
  have := Nat.find_min hex (m := m) hm
  simpa using this

/-- A block used to instantiate the proof-of-work theorem. -/
def blockW : Block :=
  { index := 1, transactions := [], timestamp := 2, previous_hash := "00",
    nonce := 0, hash := "" }

theorem hexW : ∃ n : Nat, okDigest (H0 (blockW.toInput.withNonce n)) = true :=
  ⟨0, by decide⟩

theorem proof_of_work_spec_witness :
    (∃ n : Nat, okDigest (H0 (blockW.toInput.withNonce n)) = true) ∧
    okDigest (proof_of_work H0 blockW hexW).2 = true :=
  ⟨hexW, (proof_of_work_spec H0 blockW hexW).2.1⟩

/-! ### C9: verify_ticket is a pure read -/

/-- C9: the read `verify_ticket` is pure: as an operation it leaves the state
unchanged, it returns the registry lookup result — the absent signal `none`
for an unknown id, the registry entry otherwise — and calling it twice with no
intervening mutation returns identical records. -/
theorem verify_ticket_pure (H : HashInput → String) (hg : GoodHash H)
    (s : TicketBlockchain) (tid : String) :
    applyOp H hg s (Op.verify tid) = s ∧
    verify_ticket s tid = dictGet tid s.tickets ∧
    verify_ticket (applyOp H hg s (Op.verify tid)) tid = verify_ticket s tid ∧
    (dictGet tid s.tickets = none → verify_ticket s tid = none) := by
  refine ⟨rfl, ?_, rfl, ?_⟩
  · unfold verify_ticket
    cases dictGet tid s.tickets <;> rfl
  · intro h
    unfold verify_ticket
    rw [h]

theorem verify_ticket_pure_witness :
    verify_ticket sA "X" = dictGet "X" sA.tickets ∧
    verify_ticket sA "X"
      = some { owner := "Alice", status := "valid", event := some "E" } :=
  ⟨(verify_ticket_pure H0 goodH0 sA "X").2.1, by decide⟩

end TicketChain

namespace TicketChain

/-! ### C10: frame properties of the façade operations -/

/-- C10: the operations `issue_ticket`, `transfer_ticket`, `redeem_ticket` and `verify_ticket`
never modify the chain; a successful transfer or redeem leaves every registry
entry other than the named ticket's unchanged (so does issue, for ids other
than the issued one); a successful transfer keeps the entry's status and event
fields (changing only the owner), and a successful redeem keeps the entry's
owner and event fields (changing only the status). -/
theorem frame_property (H : HashInput → String) (hg : GoodHash H)
    (s : TicketBlockchain) :
    (∀ o e tid t, (issue_ticket s o e tid t).2.chain = s.chain) ∧
    (∀ tid nw t, (transfer_ticket s tid nw t).2.chain = s.chain) ∧
    (∀ tid t, (redeem_ticket s tid t).2.chain = s.chain) ∧
    (∀ tid, applyOp H hg s (Op.verify tid) = s) ∧
    (∀ o e tid t tid', tid' ≠ tid →
      dictGet tid' (issue_ticket s o e tid t).2.tickets = dictGet tid' s.tickets) ∧
    (∀ tid nw t tid', tid' ≠ tid →
      dictGet tid' (transfer_ticket s tid nw t).2.tickets = dictGet tid' s.tickets) ∧
    (∀ tid t tid', tid' ≠ tid →
      dictGet tid' (redeem_ticket s tid t).2.tickets = dictGet tid' s.tickets) ∧
    (∀ tid nw t tk, dictGet tid s.tickets = some tk → tk.status = "valid" →
      dictGet tid (transfer_ticket s tid nw t).2.tickets
        = some { tk with owner := nw }) ∧
    (∀ tid t tk, dictGet tid s.tickets = some tk → tk.status = "valid" →
      dictGet tid (redeem_ticket s tid t).2.tickets
        = some { tk with status := "redeemed" }) := by
  refine ⟨fun o e tid t => rfl, transfer_ticket_chain s, redeem_ticket_chain s,
    fun tid => rfl, ?_, ?_, ?_, ?_, ?_⟩
  · intro o e tid t tid' hne
    exact dictGet_dictInsert_ne tid tid' _ hne s.tickets
  · intro tid nw t tid' hne
    rcases transfer_ticket_cases s tid nw t with ⟨_, heq⟩ | ⟨tk, _, _, heq⟩
    · rw [heq]
    · rw [heq]
      exact dictGet_dictInsert_ne tid tid' _ hne s.tickets
  · intro tid t tid' hne
    rcases redeem_ticket_cases s tid t with ⟨_, heq⟩ | ⟨tk, _, _, heq⟩
    · rw [heq]
    · rw [heq]
      exact dictGet_dictInsert_ne tid tid' _ hne s.tickets
  · intro tid nw t tk hget hst
    rcases transfer_ticket_cases s tid nw t with ⟨hcond, _⟩ | ⟨tk', hget', _, heq⟩
    · rcases hcond with h | ⟨tk', hget', hst'⟩
      · rw [h] at hget; cases hget
      · rw [hget'] at hget; cases hget; exact absurd hst hst'
    · rw [hget'] at hget
      cases hget
      rw [heq]
      exact dictGet_dictInsert_self tid _ s.tickets
  · intro tid t tk hget hst
    rcases redeem_ticket_cases s tid t with ⟨hcond, _⟩ | ⟨tk', hget', _, heq⟩
    · rcases hcond with h | ⟨tk', hget', hst'⟩
      · rw [h] at hget; cases hget
      · rw [hget'] at hget; cases hget; exact absurd hst hst'
    · rw [hget'] at hget
      cases hget
      rw [heq]
      exact dictGet_dictInsert_self tid _ s.tickets

theorem frame_property_witness :
    (issue_ticket sA "Bob" "E2" "Y" 7).2.chain = sA.chain ∧
    dictGet "X" (redeem_ticket sA "X" 8).2.tickets
      = some { owner := "Alice", status := "redeemed", event := some "E" } :=
  ⟨(frame_property H0 goodH0 sA).1 "Bob" "E2" "Y" 7,
   (frame_property H0 goodH0 sA).2.2.2.2.2.2.2.2 "X" 8
     { owner := "Alice", status := "valid", event := some "E" } (by decide) rfl⟩

end TicketChain

namespace TicketChain

/-! ### The chain invariant -/

theorem getLastD_eq_elem (ch : List Block) (d : Block) (h : ch ≠ [])
    (hl : ch.length - 1 < ch.length) :
    ch.getLastD d = ch[ch.length - 1] := by
  rw [List.getLastD_eq_getLast?, List.getLast?_eq_getLast ch h]
  simp [List.getLast_eq_getElem]

theorem getLastD_mem (ch : List Block) (d : Block) (h : ch ≠ []) :
    ch.getLastD d ∈ ch := by
  have hl : ch.length - 1 < ch.length := by
    cases ch with
    | nil => exact absurd rfl h
    | cons a l => simp
  rw [getLastD_eq_elem ch d h hl]
  exact List.getElem_mem hl

/-- The invariant every reachable chain satisfies: non-empty, block at
position `i` carries index `i`, every stored hash is the hash of the stored
fields, every non-genesis block's hash satisfies the difficulty predicate,
each block's `previous_hash` is the stored hash of its predecessor, and the
head is a genesis block. -/
def ChainInv (H : HashInput → String) (ch : List Block) : Prop :=
  ch ≠ [] ∧
  (∀ (i : Nat) (h : i < ch.length), (ch[i]).index = i) ∧
  (∀ b ∈ ch, b.hash = b.compute_hash H) ∧
  (∀ b ∈ ch, 0 < b.index → okDigest b.hash = true) ∧
  (∀ (i : Nat) (h : i + 1 < ch.length),
    (ch[i + 1]).previous_hash = (ch[i]).hash) ∧
  (∀ g ∈ ch.head?, g.index = 0 ∧ g.transactions = [] ∧
    g.previous_hash = "0" ∧ g.nonce = 0)

theorem chainInv_init (H : HashInput → String) (t : Nat) :
    ChainInv H (initChain H t).chain := by
  refine ⟨by simp [initChain], ?_, ?_, ?_, ?_, ?_⟩
  · intro i h
    simp [initChain] at h
    subst h
    rfl
  · intro b hb
    simp [initChain] at hb
    subst hb
    rfl
  · intro b hb h0
    simp [initChain] at hb
    subst hb
    simp [create_genesis_block] at h0
  · intro i h
    simp [initChain] at h
  · intro g hg
    simp [initChain] at hg
    subst hg
    exact ⟨rfl, rfl, rfl, rfl⟩

theorem chainInv_append (H : HashInput → String) (ch : List Block) (b : Block)
    (hI : ChainInv H ch) (hidx : b.index = ch.length)
    (hhash : b.hash = b.compute_hash H) (hok : okDigest b.hash = true)
    (hprev : b.previous_hash = (ch.getLastD dummyBlock).hash) :
    ChainInv H (ch ++ [b]) := by
  obtain ⟨hne, hidxs, hhashes, hdiff, hlink, hhead⟩ := hI
  have hlen : (ch ++ [b]).length = ch.length + 1 := by simp
  refine ⟨by simp, ?_, ?_, ?_, ?_, ?_⟩
  · intro i h
    rw [hlen] at h
    rcases Nat.lt_or_ge i ch.length with hi | hi
    · rw [List.getElem_append_left hi]
      exact hidxs i hi
    · have hieq : i = ch.length := by omega
      subst hieq
      rw [List.getElem_append_right (Nat.le_refl _)]
      simpa using hidx
  · intro b' hb'
    rcases List.mem_append.mp hb' with h | h
    · exact hhashes b' h
    · rw [List.mem_singleton.mp h]
      exact hhash
  · intro b' hb' h0
    rcases List.mem_append.mp hb' with h | h
    · exact hdiff b' h h0
    · rw [List.mem_singleton.mp h]
      exact hok
  · intro i h
    rw [hlen] at h
    rcases Nat.lt_or_ge (i + 1) ch.length with hi | hi
    · rw [List.getElem_append_left hi,
        List.getElem_append_left (Nat.lt_of_succ_lt hi)]
      exact hlink i hi
    · have hieq : i + 1 = ch.length := by omega
      have hic : i < ch.length := by omega
      rw [List.getElem_append_right (show ch.length ≤ i + 1 by omega),
        List.getElem_append_left hic]
      have hz : i + 1 - ch.length = 0 := by omega
      simp only [hz, List.getElem_cons_zero]
      rw [hprev, getLastD_eq_elem ch dummyBlock hne (by omega)]
      have hi1 : ch.length - 1 = i := by omega
      simp only [hi1]
  · intro g hg
    cases ch with
    | nil => exact absurd rfl hne
    | cons a l =>
      simp only [List.cons_append, List.head?_cons, Option.mem_def,
        Option.some.injEq] at hg
      rw [← hg]
      exact hhead a (by simp)

end TicketChain

namespace TicketChain

/-- The block `mine` seals and appends when the pending buffer is non-empty,
written exactly as `mine` builds it. -/
def minedBlock (H : HashInput → String) (hg : GoodHash H)
    (s : TicketBlockchain) (t : Nat) : Block :=
  let prev := s.chain.getLastD dummyBlock
  let new_block : Block :=
    { index := s.chain.length, transactions := s.pending_transactions,
      timestamp := t, previous_hash := prev.compute_hash H, nonce := 0,
      hash := "" }
  let sealed := proof_of_work H new_block (hg new_block.toInput)
  { sealed.1 with hash := sealed.2 }

theorem mine_nonempty (H : HashInput → String) (hg : GoodHash H)
    (s : TicketBlockchain) (t : Nat) (hp : s.pending_transactions ≠ []) :
    mine H hg s t =
      (some (minedBlock H hg s t),
       { s with chain := s.chain ++ [minedBlock H hg s t],
                pending_transactions := [] }) := by
  unfold mine minedBlock
  rw [if_neg hp]

theorem minedBlock_index (H : HashInput → String) (hg : GoodHash H)
    (s : TicketBlockchain) (t : Nat) :
    (minedBlock H hg s t).index = s.chain.length := rfl

theorem minedBlock_transactions (H : HashInput → String) (hg : GoodHash H)
    (s : TicketBlockchain) (t : Nat) :
    (minedBlock H hg s t).transactions = s.pending_transactions := rfl

theorem minedBlock_timestamp (H : HashInput → String) (hg : GoodHash H)
    (s : TicketBlockchain) (t : Nat) :
    (minedBlock H hg s t).timestamp = t := rfl

theorem minedBlock_previous_hash (H : HashInput → String) (hg : GoodHash H)
    (s : TicketBlockchain) (t : Nat) :
    (minedBlock H hg s t).previous_hash
      = (s.chain.getLastD dummyBlock).compute_hash H := rfl

theorem minedBlock_hash (H : HashInput → String) (hg : GoodHash H)
    (s : TicketBlockchain) (t : Nat) :
    (minedBlock H hg s t).hash = (minedBlock H hg s t).compute_hash H := rfl

theorem minedBlock_okDigest (H : HashInput → String) (hg : GoodHash H)
    (s : TicketBlockchain) (t : Nat) :
    okDigest (minedBlock H hg s t).hash = true :=
  Nat.find_spec (hg _)

theorem chainInv_applyOp (H : HashInput → String) (hg : GoodHash H)
    (s : TicketBlockchain) (op : Op) (hI : ChainInv H s.chain) :
    ChainInv H (applyOp H hg s op).chain := by
  cases op with
  | issue o e tid t =>
    rw [show (applyOp H hg s (Op.issue o e tid t)).chain = s.chain from
      issue_ticket_chain s o e tid t]
    exact hI
  | transfer tid nw t =>
    rw [show (applyOp H hg s (Op.transfer tid nw t)).chain = s.chain from
      transfer_ticket_chain s tid nw t]
    exact hI
  | redeem tid t =>
    rw [show (applyOp H hg s (Op.redeem tid t)).chain = s.chain from
      redeem_ticket_chain s tid t]
    exact hI
  | verify tid => exact hI
  | mine t =>
    by_cases hp : s.pending_transactions = []
    · show ChainInv H (mine H hg s t).2.chain
      simp only [mine, hp, if_true]
      exact hI
    · show ChainInv H (mine H hg s t).2.chain
      rw [mine_nonempty H hg s t hp]
      refine chainInv_append H s.chain (minedBlock H hg s t) hI
        (minedBlock_index H hg s t) (minedBlock_hash H hg s t)
        (minedBlock_okDigest H hg s t) ?_
      rw [minedBlock_previous_hash H hg s t]
      exact (hI.2.2.1 _ (getLastD_mem s.chain dummyBlock hI.1)).symm

theorem chainInv_run (H : HashInput → String) (hg : GoodHash H) :
    ∀ (ops : List Op) (s : TicketBlockchain), ChainInv H s.chain →
      ChainInv H (run H hg s ops).chain
  | [], _, hI => hI
  | op :: ops, s, hI =>
    chainInv_run H hg ops (applyOp H hg s op) (chainInv_applyOp H hg s op hI)

theorem chainInv_reachAt (H : HashInput → String) (hg : GoodHash H)
    (t0 : Nat) (ops : List Op) : ChainInv H (reachAt H hg t0 ops).chain :=
  chainInv_run H hg ops (initChain H t0) (chainInv_init H t0)

end TicketChain

namespace TicketChain

/-! ### C1: hash-chain linkage -/

/-- C1: in every state reachable from a fresh `TicketBlockchain` by façade
calls, every block at chain position `i > 0` has `previous_hash` equal to the
stored hash of the block at position `i - 1`. -/
theorem chain_linkage (H : HashInput → String) (hg : GoodHash H) (t0 : Nat)
    (ops : List Op) (i : Nat) (h0 : 0 < i)
    (h : i < (reachAt H hg t0 ops).chain.length) :
    ((reachAt H hg t0 ops).chain[i]).previous_hash
      = ((reachAt H hg t0 ops).chain[i - 1]).hash := by
  obtain ⟨-, -, -, -, hlink, -⟩ := chainInv_reachAt H hg t0 ops
  have hstep := hlink (i - 1) (by omega)
  simpa [Nat.sub_add_cancel h0] using hstep

/-! ### C2: sealed-block hash validity -/

/-- C2: in every reachable state, every chain block's stored hash equals the
hash of its stored fields; every block except the one at position/index `0`
has a digest satisfying the difficulty predicate; block at position `i`
carries index `i`; and the head is the genesis block: index `0`, no
transactions, `previous_hash = "0"`, nonce `0`, hash computed but not subject
to the difficulty predicate. -/
theorem sealed_block_hash_validity (H : HashInput → String) (hg : GoodHash H)
    (t0 : Nat) (ops : List Op) :
    (∀ b ∈ (reachAt H hg t0 ops).chain, b.hash = b.compute_hash H) ∧
    (∀ b ∈ (reachAt H hg t0 ops).chain, 0 < b.index →
      okDigest b.hash = true) ∧
    (∀ (i : Nat) (h : i < (reachAt H hg t0 ops).chain.length),
      ((reachAt H hg t0 ops).chain[i]).index = i) ∧
    (∀ g ∈ (reachAt H hg t0 ops).chain.head?,
      g.index = 0 ∧ g.transactions = [] ∧ g.previous_hash = "0" ∧
      g.nonce = 0 ∧ g.hash = g.compute_hash H) := by
  obtain ⟨hne, hidx, hhash, hdiff, -, hhead⟩ := chainInv_reachAt H hg t0 ops
  refine ⟨hhash, hdiff, hidx, ?_⟩
  intro g hg'
  obtain ⟨h1, h2, h3, h4⟩ := hhead g hg'
  exact ⟨h1, h2, h3, h4, hhash g (List.mem_of_mem_head? hg')⟩

/-! ### C3: mine on a non-empty pending buffer -/

/-- C3: calling `mine()` on a reachable state with a non-empty pending buffer returns
a sealed block whose index is the pre-call chain length, whose transactions
are exactly the pending transactions in arrival order, and whose
`previous_hash` equals the last chain block's stored hash; it satisfies the
proof-of-work predicate, is appended to the chain (length grows by one) and
the pending buffer is cleared. -/
theorem mine_seals_pending (H : HashInput → String) (hg : GoodHash H)
    (t0 : Nat) (ops : List Op) (t : Nat)
    (hp : (reachAt H hg t0 ops).pending_transactions ≠ []) :
    ∃ b : Block,
      mine H hg (reachAt H hg t0 ops) t
        = (some b,
           { reachAt H hg t0 ops with
               chain := (reachAt H hg t0 ops).chain ++ [b],
               pending_transactions := [] }) ∧
      b.index = (reachAt H hg t0 ops).chain.length ∧
      b.transactions = (reachAt H hg t0 ops).pending_transactions ∧
      b.timestamp = t ∧
      okDigest b.hash = true ∧
      (∀ hne : (reachAt H hg t0 ops).chain ≠ [],
        b.previous_hash = ((reachAt H hg t0 ops).chain.getLast hne).hash) ∧
      (mine H hg (reachAt H hg t0 ops) t).2.chain.length
        = (reachAt H hg t0 ops).chain.length + 1 ∧
      (mine H hg (reachAt H hg t0 ops) t).2.pending_transactions = [] := by
  refine ⟨minedBlock H hg (reachAt H hg t0 ops) t,
    mine_nonempty H hg (reachAt H hg t0 ops) t hp,
    minedBlock_index H hg (reachAt H hg t0 ops) t,
    minedBlock_transactions H hg (reachAt H hg t0 ops) t,
    minedBlock_timestamp H hg (reachAt H hg t0 ops) t,
    minedBlock_okDigest H hg (reachAt H hg t0 ops) t, ?_, ?_, ?_⟩
  · intro hne
    have hD : (reachAt H hg t0 ops).chain.getLastD dummyBlock
        = (reachAt H hg t0 ops).chain.getLast hne := by
      rw [List.getLastD_eq_getLast?,
        List.getLast?_eq_getLast (reachAt H hg t0 ops).chain hne]
      rfl
    rw [minedBlock_previous_hash H hg (reachAt H hg t0 ops) t, hD]
    exact ((chainInv_reachAt H hg t0 ops).2.2.1 _
      (List.getLast_mem hne)).symm
  · rw [mine_nonempty H hg (reachAt H hg t0 ops) t hp]
    simp
  · rw [mine_nonempty H hg (reachAt H hg t0 ops) t hp]

/-! ### A fully evaluated two-block trace for instantiating theorems -/

def opsW : List Op := [Op.issue "Alice" "RockFest" "X" 1, Op.mine 2]

def txIW : TicketTransaction :=
  { tx_type := "issue", ticket_id := "X", owner := "Alice",
    event := some "RockFest", new_owner := none, timestamp := 1 }

def gblockW : Block :=
  { index := 0, transactions := [], timestamp := 0, previous_hash := "0",
    nonce := 0, hash := "00" }

def fblockW : Block :=
  { index := 1, transactions := [txIW], timestamp := 2, previous_hash := "00",
    nonce := 0, hash := "00" }

theorem chainW : (reachAt H0 goodH0 0 opsW).chain = [gblockW, fblockW] := by
  have h1 : reachAt H0 goodH0 0 opsW
      = (mine H0 goodH0
          { chain := [gblockW], pending_transactions := [txIW],
            tickets := [("X",
              { owner := "Alice", status := "valid",
                event := some "RockFest" })] } 2).2 := rfl
  have h3 : minedBlock H0 goodH0
      { chain := [gblockW], pending_transactions := [txIW],
        tickets := [("X",
          { owner := "Alice", status := "valid",
            event := some "RockFest" })] } 2 = fblockW := by
    simp only [minedBlock]
    rw [pow_H0]
    decide
  rw [h1, mine_nonempty H0 goodH0 _ 2 (by decide), h3]
  rfl

theorem lenW : 1 < (reachAt H0 goodH0 0 opsW).chain.length := by
  rw [chainW]
  decide

theorem chain_linkage_witness :
    0 < 1 ∧
    ((reachAt H0 goodH0 0 opsW).chain.get ⟨1, lenW⟩).previous_hash
      = ((reachAt H0 goodH0 0 opsW).chain.get
          ⟨0, Nat.lt_of_succ_lt lenW⟩).hash :=
  ⟨Nat.one_pos, chain_linkage H0 goodH0 0 opsW 1 Nat.one_pos lenW⟩

theorem sealed_block_hash_validity_witness :
    fblockW ∈ (reachAt H0 goodH0 0 opsW).chain ∧ 0 < fblockW.index ∧
    okDigest fblockW.hash = true ∧
    fblockW.hash = fblockW.compute_hash H0 := by
  have hmem : fblockW ∈ (reachAt H0 goodH0 0 opsW).chain := by
    rw [chainW]
    simp
  refine ⟨hmem, by decide, ?_, ?_⟩
  · exact (sealed_block_hash_validity H0 goodH0 0 opsW).2.1 fblockW hmem
      (by decide)
  · exact (sealed_block_hash_validity H0 goodH0 0 opsW).1 fblockW hmem

theorem mine_seals_pending_witness :
    (reachAt H0 goodH0 0 [Op.issue "Alice" "RockFest" "X" 1]).pending_transactions
      ≠ [] ∧
    ∃ b : Block,
      (mine H0 goodH0 (reachAt H0 goodH0 0 [Op.issue "Alice" "RockFest" "X" 1]) 2).1
        = some b ∧
      b.transactions
        = (reachAt H0 goodH0 0
            [Op.issue "Alice" "RockFest" "X" 1]).pending_transactions ∧
      okDigest b.hash = true := by
  have hp : (reachAt H0 goodH0 0
      [Op.issue "Alice" "RockFest" "X" 1]).pending_transactions ≠ [] := by
    decide
  obtain ⟨b, heq, -, htx, -, hok, -⟩ :=
    mine_seals_pending H0 goodH0 0 [Op.issue "Alice" "RockFest" "X" 1] 2 hp
  exact ⟨hp, b, by rw [heq], htx, hok⟩

end TicketChain

namespace TicketChain

/-! ### C4: transaction conservation -/

theorem allTxs_applyOp (H : HashInput → String) (hg : GoodHash H)
    (s : TicketBlockchain) (op : Op) :
    allTxs (applyOp H hg s op) = allTxs s ++ submittedOp s op := by
  cases op with
  | issue o e tid t =>
    simp [allTxs, applyOp, issue_ticket, add_transaction, submittedOp]
  | transfer tid nw t =>
    show allTxs (transfer_ticket s tid nw t).2 = _
    rcases transfer_ticket_cases s tid nw t with ⟨hcond, heq⟩ | ⟨tk, hget, hst, heq⟩
    · have hsub : submittedOp s (Op.transfer tid nw t) = [] := by
        rcases hcond with h | ⟨tk, hget, hst⟩
        · simp [submittedOp, h]
        · simp [submittedOp, hget, hst]
      rw [heq, hsub, List.append_nil]
    · have hsub : submittedOp s (Op.transfer tid nw t)
          = [{ tx_type := "transfer", ticket_id := tid, owner := tk.owner,
               event := none, new_owner := some nw, timestamp := t }] := by
        simp [submittedOp, hget, hst]
      rw [heq, hsub]
      simp [allTxs]
  | redeem tid t =>
    show allTxs (redeem_ticket s tid t).2 = _
    rcases redeem_ticket_cases s tid t with ⟨hcond, heq⟩ | ⟨tk, hget, hst, heq⟩
    · have hsub : submittedOp s (Op.redeem tid t) = [] := by
        rcases hcond with h | ⟨tk, hget, hst⟩
        · simp [submittedOp, h]
        · simp [submittedOp, hget, hst]
      rw [heq, hsub, List.append_nil]
    · have hsub : submittedOp s (Op.redeem tid t)
          = [{ tx_type := "redeem", ticket_id := tid, owner := tk.owner,
               event := none, new_owner := none, timestamp := t }] := by
        simp [submittedOp, hget, hst]
      rw [heq, hsub]
      simp [allTxs]
  | mine t =>
    show allTxs (mine H hg s t).2 = _
    have hsub : submittedOp s (Op.mine t) = [] := rfl
    rw [hsub, List.append_nil]
    by_cases hp : s.pending_transactions = []
    · simp [mine, hp]
    · rw [mine_nonempty H hg s t hp]
      simp [allTxs, minedBlock_transactions]
  | verify tid =>
    show allTxs s = _
    rw [show submittedOp s (Op.verify tid) = [] from rfl, List.append_nil]

theorem allTxs_run (H : HashInput → String) (hg : GoodHash H) :
    ∀ (ops : List Op) (s : TicketBlockchain),
      allTxs (run H hg s ops) = allTxs s ++ submittedAll H hg s ops
  | [], s => by simp [run, submittedAll]
  | op :: ops, s => by
    rw [show run H hg s (op :: ops) = run H hg (applyOp H hg s op) ops from rfl,
      allTxs_run H hg ops (applyOp H hg s op), allTxs_applyOp H hg s op,
      show submittedAll H hg s (op :: ops)
        = submittedOp s op ++ submittedAll H hg (applyOp H hg s op) ops from rfl,
      List.append_assoc]

theorem allTxs_init (H : HashInput → String) (t0 : Nat) :
    allTxs (initChain H t0) = [] := rfl

theorem sum_eq_zero_mem : ∀ l : List Nat, l.sum = 0 → ∀ x ∈ l, x = 0
  | [], _, x, hx => by simp at hx
  | a :: l, h, x, hx => by
    rw [List.sum_cons] at h
    rcases List.mem_cons.mp hx with rfl | hx'
    · omega
    · exact sum_eq_zero_mem l (by omega) x hx'

theorem sum_eq_one_unique : ∀ l : List Nat, l.sum = 1 →
    ∃ (i : Nat) (hi : i < l.length), l[i] = 1 ∧
      ∀ (j : Nat) (hj : j < l.length), j ≠ i → l[j] = 0
  | [], h => by simp at h
  | a :: l, h => by
    rw [List.sum_cons] at h
    rcases Nat.eq_zero_or_pos a with ha | ha
    · have hl : l.sum = 1 := by omega
      obtain ⟨i, hi, h1, h0⟩ := sum_eq_one_unique l hl
      refine ⟨i + 1, by simpa using hi, by simpa using h1, ?_⟩
      intro j hj hne
      cases j with
      | zero => simpa using ha
      | succ j' =>
        have hj' : j' < l.length := by simpa using hj
        have : j' ≠ i := fun hh => hne (by rw [hh])
        simpa using h0 j' hj' this
    · have ha1 : a = 1 := by omega
      have hl : l.sum = 0 := by omega
      refine ⟨0, by simp, by simpa using ha1, ?_⟩
      intro j hj hne
      cases j with
      | zero => exact absurd rfl hne
      | succ j' =>
        have hj' : j' < l.length := by simpa using hj
        simpa using sum_eq_zero_mem l hl _ (List.getElem_mem hj')

/-- C4: every transaction appended via `add_transaction` along a trace from a
fresh `TicketBlockchain` is conserved: counting occurrences, the pending
buffer and the sealed blocks together hold exactly the submitted transactions;
in particular a transaction submitted exactly once is either in the pending
buffer and in no block, or out of the pending buffer and in exactly one sealed
block (once in that block). -/
theorem transaction_conservation (H : HashInput → String) (hg : GoodHash H)
    (t0 : Nat) (ops : List Op) (tx : TicketTransaction) :
    ((reachAt H hg t0 ops).pending_transactions.count tx
      + ((reachAt H hg t0 ops).chain.map
          (fun b => b.transactions.count tx)).sum
      = (submittedAll H hg (initChain H t0) ops).count tx) ∧
    ((submittedAll H hg (initChain H t0) ops).count tx = 1 →
      (tx ∈ (reachAt H hg t0 ops).pending_transactions ∧
        ∀ b ∈ (reachAt H hg t0 ops).chain, tx ∉ b.transactions) ∨
      (tx ∉ (reachAt H hg t0 ops).pending_transactions ∧
        ∃ (i : Nat) (hi : i < (reachAt H hg t0 ops).chain.length),
          ((reachAt H hg t0 ops).chain[i]).transactions.count tx = 1 ∧
          ∀ (j : Nat) (hj : j < (reachAt H hg t0 ops).chain.length), j ≠ i →
            tx ∉ ((reachAt H hg t0 ops).chain[j]).transactions)) := by
  have hall : allTxs (reachAt H hg t0 ops)
      = submittedAll H hg (initChain H t0) ops := by
    rw [show reachAt H hg t0 ops = run H hg (initChain H t0) ops from rfl,
      allTxs_run, allTxs_init]
    rfl
  have hcount : (reachAt H hg t0 ops).pending_transactions.count tx
      + ((reachAt H hg t0 ops).chain.map
          (fun b => b.transactions.count tx)).sum
      = (submittedAll H hg (initChain H t0) ops).count tx := by
    rw [← hall]
    unfold allTxs
    rw [List.count_append, List.count_flatten, List.map_map]
    exact Nat.add_comm _ _
  refine ⟨hcount, ?_⟩
  intro h1
  rw [h1] at hcount
  rcases Nat.eq_zero_or_pos ((reachAt H hg t0 ops).pending_transactions.count tx)
    with hp | hp
  · right
    refine ⟨fun hmem => by
      have := List.count_pos_iff.mpr hmem
      omega, ?_⟩
    have hsum : ((reachAt H hg t0 ops).chain.map
        (fun b => b.transactions.count tx)).sum = 1 := by omega
    obtain ⟨i, hi, hone, hzero⟩ := sum_eq_one_unique _ hsum
    rw [List.length_map] at hi
    refine ⟨i, hi, ?_, ?_⟩
    · have := hone
      rwa [List.getElem_map] at this
    · intro j hj hne
      have := hzero j (by simpa using hj) hne
      rw [List.getElem_map] at this
      exact List.not_mem_of_count_eq_zero this
  · left
    have hp1 : (reachAt H hg t0 ops).pending_transactions.count tx = 1 := by
      omega
    have hsum : ((reachAt H hg t0 ops).chain.map
        (fun b => b.transactions.count tx)).sum = 0 := by omega
    refine ⟨List.count_pos_iff.mp (by omega), ?_⟩
    intro b hb
    have : b.transactions.count tx = 0 :=
      sum_eq_zero_mem _ hsum _ (List.mem_map_of_mem _ hb)
    exact List.not_mem_of_count_eq_zero this

theorem transaction_conservation_witness :
    (submittedAll H0 goodH0 (initChain H0 0)
        [Op.issue "Alice" "RockFest" "X" 1]).count txIW = 1 ∧
    ((reachAt H0 goodH0 0 [Op.issue "Alice" "RockFest" "X" 1]).pending_transactions.count txIW
      + ((reachAt H0 goodH0 0 [Op.issue "Alice" "RockFest" "X" 1]).chain.map
          (fun b => b.transactions.count txIW)).sum
      = (submittedAll H0 goodH0 (initChain H0 0)
          [Op.issue "Alice" "RockFest" "X" 1]).count txIW) ∧
    txIW ∈ (reachAt H0 goodH0 0
      [Op.issue "Alice" "RockFest" "X" 1]).pending_transactions := by
  have h1 : (submittedAll H0 goodH0 (initChain H0 0)
      [Op.issue "Alice" "RockFest" "X" 1]).count txIW = 1 := by decide
  have h := transaction_conservation H0 goodH0 0
    [Op.issue "Alice" "RockFest" "X" 1] txIW
  refine ⟨h1, h.1, ?_⟩
  rcases h.2 h1 with ⟨hmem, -⟩ | ⟨hnot, -⟩
  · exact hmem
  · exact absurd (by decide) hnot

end TicketChain

namespace TicketChain

/-! ### C6: redemption is terminal -/

theorem status_redeemed_preserved (H : HashInput → String) (hg : GoodHash H)
    (tid : String) :
    ∀ (ops : List Op) (s : TicketBlockchain) (tk : TicketRec),
      dictGet tid s.tickets = some tk → tk.status = "redeemed" →
      okTrace H hg s ops = true →
      ∃ tk', dictGet tid (run H hg s ops).tickets = some tk' ∧
        tk'.status = "redeemed"
  | [], s, tk, hget, hst, _ => ⟨tk, hget, hst⟩
  | op :: ops, s, tk, hget, hst, hok => by
    have step : ∃ tk₂, dictGet tid (applyOp H hg s op).tickets = some tk₂ ∧
        tk₂.status = "redeemed" ∧
        okTrace H hg (applyOp H hg s op) ops = true := by
      cases op with
      | issue o e tid' t =>
        rw [show okTrace H hg s (Op.issue o e tid' t :: ops)
            = ((dictGet tid' s.tickets).isNone
                && okTrace H hg (applyOp H hg s (Op.issue o e tid' t)) ops)
            from rfl, Bool.and_eq_true] at hok
        obtain ⟨hok1, hok2⟩ := hok
        have hne : tid ≠ tid' := by
          intro hh
          rw [← hh, hget] at hok1
          simp at hok1
        refine ⟨tk, ?_, hst, hok2⟩
        show dictGet tid (issue_ticket s o e tid' t).2.tickets = some tk
        rw [show (issue_ticket s o e tid' t).2.tickets
            = dictInsert tid'
                { owner := o, status := "valid", event := some e }
                s.tickets from rfl,
          dictGet_dictInsert_ne tid' tid _ hne s.tickets]
        exact hget
      | transfer tid' nw t =>
        rw [show okTrace H hg s (Op.transfer tid' nw t :: ops)
            = (true && okTrace H hg (applyOp H hg s (Op.transfer tid' nw t)) ops)
            from rfl, Bool.true_and] at hok
        show ∃ tk₂, dictGet tid (transfer_ticket s tid' nw t).2.tickets
            = some tk₂ ∧ tk₂.status = "redeemed" ∧
            okTrace H hg (applyOp H hg s (Op.transfer tid' nw t)) ops = true
        by_cases hh : tid = tid'
        · subst hh
          rcases transfer_ticket_cases s tid nw t with ⟨-, heq⟩ |
            ⟨tk₃, hget₃, hst₃, -⟩
          · rw [heq]
            exact ⟨tk, hget, hst, hok⟩
          · rw [hget] at hget₃
            cases hget₃
            rw [hst] at hst₃
            exact absurd hst₃ (by decide)
        · rcases transfer_ticket_cases s tid' nw t with ⟨-, heq⟩ |
            ⟨tk₃, hget₃, hst₃, heq⟩
          · rw [heq]
            exact ⟨tk, hget, hst, hok⟩
          · rw [heq]
            refine ⟨tk, ?_, hst, hok⟩
            show dictGet tid (dictInsert tid' _ s.tickets) = some tk
            rw [dictGet_dictInsert_ne tid' tid _ hh s.tickets]
            exact hget
      | redeem tid' t =>
        rw [show okTrace H hg s (Op.redeem tid' t :: ops)
            = (true && okTrace H hg (applyOp H hg s (Op.redeem tid' t)) ops)
            from rfl, Bool.true_and] at hok
        show ∃ tk₂, dictGet tid (redeem_ticket s tid' t).2.tickets
            = some tk₂ ∧ tk₂.status = "redeemed" ∧
            okTrace H hg (applyOp H hg s (Op.redeem tid' t)) ops = true
        by_cases hh : tid = tid'
        · subst hh
          rcases redeem_ticket_cases s tid t with ⟨-, heq⟩ |
            ⟨tk₃, hget₃, hst₃, -⟩
          · rw [heq]
            exact ⟨tk, hget, hst, hok⟩
          · rw [hget] at hget₃
            cases hget₃
            rw [hst] at hst₃
            exact absurd hst₃ (by decide)
        · rcases redeem_ticket_cases s tid' t with ⟨-, heq⟩ |
            ⟨tk₃, hget₃, hst₃, heq⟩
          · rw [heq]
            exact ⟨tk, hget, hst, hok⟩
          · rw [heq]
            refine ⟨tk, ?_, hst, hok⟩
            show dictGet tid (dictInsert tid' _ s.tickets) = some tk
            rw [dictGet_dictInsert_ne tid' tid _ hh s.tickets]
            exact hget
      | mine t =>
        rw [show okTrace H hg s (Op.mine t :: ops)
            = (true && okTrace H hg (applyOp H hg s (Op.mine t)) ops)
            from rfl, Bool.true_and] at hok
        show ∃ tk₂, dictGet tid (mine H hg s t).2.tickets = some tk₂ ∧
            tk₂.status = "redeemed" ∧ _
        rw [mine_tickets H hg s t]
        exact ⟨tk, hget, hst, hok⟩
      | verify tid' =>
        rw [show okTrace H hg s (Op.verify tid' :: ops)
            = (true && okTrace H hg (applyOp H hg s (Op.verify tid')) ops)
            from rfl, Bool.true_and] at hok
        exact ⟨tk, hget, hst, hok⟩
    obtain ⟨tk₂, hget₂, hst₂, hok₂⟩ := step
    exact status_redeemed_preserved H hg tid ops (applyOp H hg s op) tk₂
      hget₂ hst₂ hok₂

/-- C6: after a successful `redeem_ticket(ticket_id)`, under any further trace
of façade calls (with fresh issued ids), the registry status of `ticket_id`
stays `"redeemed"`, and every later `transfer_ticket(ticket_id, _)` and
`redeem_ticket(ticket_id)` returns `false` and leaves the state unchanged. -/
theorem redeem_terminal (H : HashInput → String) (hg : GoodHash H)
    (s : TicketBlockchain) (tid : String) (t : Nat)
    (hsucc : (redeem_ticket s tid t).1 = true)
    (ops : List Op)
    (hok : okTrace H hg (redeem_ticket s tid t).2 ops = true) :
    (∃ tk', dictGet tid
        (run H hg (redeem_ticket s tid t).2 ops).tickets = some tk' ∧
      tk'.status = "redeemed") ∧
    (∀ (nw : String) (t2 : Nat),
      transfer_ticket (run H hg (redeem_ticket s tid t).2 ops) tid nw t2
        = (false, run H hg (redeem_ticket s tid t).2 ops)) ∧
    (∀ t2 : Nat,
      redeem_ticket (run H hg (redeem_ticket s tid t).2 ops) tid t2
        = (false, run H hg (redeem_ticket s tid t).2 ops)) := by
  rcases redeem_ticket_cases s tid t with ⟨-, heq⟩ | ⟨tk, hget, hst, heq⟩
  · rw [heq] at hsucc
    exact Bool.noConfusion hsucc
  · have h1 : dictGet tid (redeem_ticket s tid t).2.tickets
        = some { tk with status := "redeemed" } := by
      rw [heq]
      exact dictGet_dictInsert_self tid _ s.tickets
    obtain ⟨tk', hget', hst'⟩ := status_redeemed_preserved H hg tid ops _ _
      h1 rfl hok
    refine ⟨⟨tk', hget', hst'⟩, ?_, ?_⟩
    · intro nw t2
      rcases transfer_ticket_cases (run H hg (redeem_ticket s tid t).2 ops)
        tid nw t2 with ⟨-, he⟩ | ⟨tk₂, hg2, hs2, -⟩
      · exact he
      · rw [hget'] at hg2
        cases hg2
        rw [hst'] at hs2
        exact absurd hs2 (by decide)
    · intro t2
      rcases redeem_ticket_cases (run H hg (redeem_ticket s tid t).2 ops)
        tid t2 with ⟨-, he⟩ | ⟨tk₂, hg2, hs2, -⟩
      · exact he
      · rw [hget'] at hg2
        cases hg2
        rw [hst'] at hs2
        exact absurd hs2 (by decide)

theorem redeem_terminal_witness :
    (redeem_ticket sA "X" 9).1 = true ∧
    okTrace H0 goodH0 (redeem_ticket sA "X" 9).2 [] = true ∧
    transfer_ticket (run H0 goodH0 (redeem_ticket sA "X" 9).2 []) "X" "Bob" 10
      = (false, run H0 goodH0 (redeem_ticket sA "X" 9).2 []) ∧
    redeem_ticket (run H0 goodH0 (redeem_ticket sA "X" 9).2 []) "X" 11
      = (false, run H0 goodH0 (redeem_ticket sA "X" 9).2 []) := by
  have hs : (redeem_ticket sA "X" 9).1 = true := by decide
  have h := redeem_terminal H0 goodH0 sA "X" 9 hs [] rfl
  exact ⟨hs, rfl, h.2.1 "Bob" 10, h.2.2 11⟩

end TicketChain
